import Mathlib

/-!
Verification of the Idea Board backend (src/backend/server.py).

The service stores `Idea` documents in a MongoDB collection.  Timestamps are
`datetime.now(timezone.utc)` values; before insertion `prepare_for_mongo`
serializes `created_at` with `datetime.isoformat()`, and on every read
`parse_from_mongo` deserializes it with `datetime.fromisoformat`.  The list
endpoint lets the database order documents by `(upvotes, -1), (created_at, -1)`,
so ties on `upvotes` are broken by byte-wise comparison of the stored
ISO-8601 strings.

This file embeds the timestamp serialization, the three idea endpoints, and
the reachable states of the collection, and proves the specification claims
about them.
-/

namespace IdeaBoard

/-- A timezone-aware UTC datetime, as produced by `datetime.now(timezone.utc)`:
calendar fields plus microseconds, timezone fixed to UTC. -/
structure UTCTime where
  year : Nat
  month : Nat
  day : Nat
  hour : Nat
  minute : Nat
  second : Nat
  microsecond : Nat
deriving DecidableEq, Repr

/-- Field bounds satisfied by every value `datetime.now(timezone.utc)` can return
(Python datetimes range over years 1..9999). -/

def validTime (t : UTCTime) : Prop :=
  1 ≤ t.year ∧ t.year ≤ 9999 ∧ 1 ≤ t.month ∧ t.month ≤ 12 ∧ 1 ≤ t.day ∧ t.day ≤ 31 ∧
    t.hour ≤ 23 ∧ t.minute ≤ 59 ∧ t.second ≤ 59 ∧ t.microsecond ≤ 999999

instance (t : UTCTime) : Decidable (validTime t) := by
  unfold validTime; infer_instance

/-- Chronological (lexicographic field-wise) strict order on UTC datetimes. -/

def timeLt (a b : UTCTime) : Prop :=
  a.year < b.year ∨ (a.year = b.year ∧
    (a.month < b.month ∨ (a.month = b.month ∧
      (a.day < b.day ∨ (a.day = b.day ∧
        (a.hour < b.hour ∨ (a.hour = b.hour ∧
          (a.minute < b.minute ∨ (a.minute = b.minute ∧
            (a.second < b.second ∨ (a.second = b.second ∧
              a.microsecond < b.microsecond)))))))))))

instance (a b : UTCTime) : Decidable (timeLt a b) := by
  unfold timeLt; infer_instance

/-- Fixed-width zero-padded decimal numeral (most significant digit first):
the character list `"%0*d" % (w, n)` produces for `n < 10 ^ w`. -/

def padNum : Nat → Nat → List Char
  | 0, _ => []
  | w + 1, n => Nat.digitChar (n / 10 ^ w) :: padNum w (n % 10 ^ w)

def tzChars : List Char := ['+', '0', '0', ':', '0', '0']

/-- Character list of `datetime.isoformat()` for a UTC datetime:
`YYYY-MM-DDTHH:MM:SS[.ffffff]+00:00`, where the fractional part is omitted
exactly when `microsecond = 0` (Python's behavior). -/

def isoChars (t : UTCTime) : List Char :=
  padNum 4 t.year ++ ('-' :: (padNum 2 t.month ++ ('-' :: (padNum 2 t.day ++
    ('T' :: (padNum 2 t.hour ++ (':' :: (padNum 2 t.minute ++ (':' :: (padNum 2 t.second ++
      ((if t.microsecond = 0 then [] else '.' :: padNum 6 t.microsecond) ++ tzChars)))))))))))

/-- `datetime.isoformat()` of a UTC datetime, as a string. -/

def isoString (t : UTCTime) : String := String.mk (isoChars t)

/-- Numeric value of a decimal digit character, as used by `int()` parsing. -/

def digitVal (c : Char) : Option Nat :=
  if '0' ≤ c ∧ c ≤ '9' then some (c.toNat - '0'.toNat) else none

/-- Parse exactly `w` decimal digit characters into a number, returning the rest. -/

def parseFixed : Nat → List Char → Option (Nat × List Char)
  | 0, l => some (0, l)
  | _ + 1, [] => none
  | w + 1, c :: l =>
    match digitVal c, parseFixed w l with
    | some d, some (m, rest) => some (d * 10 ^ w + m, rest)
    | _, _ => none

/-- Consume one expected character. -/

def expectChar (c : Char) : List Char → Option (List Char)
  | [] => none
  | c₁ :: l => if c₁ = c then some l else none

/-- Parse the optional fractional-seconds part `.ffffff` (6 digits), as emitted
by `isoformat`; absent fraction means 0 microseconds. -/

def parseFrac : List Char → Option (Nat × List Char)
  | '.' :: l => parseFixed 6 l
  | l => some (0, l)

/-- Consume the `+00:00` UTC offset suffix. -/

def parseOffsetUTC : List Char → Option (List Char)
  | '+' :: '0' :: '0' :: ':' :: '0' :: '0' :: l => some l
  | _ => none

/-- Modelled from the spec: `datetime.fromisoformat`, restricted to the strings
`datetime.isoformat()` emits for UTC datetimes
(`YYYY-MM-DDTHH:MM:SS[.ffffff]+00:00`); `fromisoformat` is documented as the
inverse of `isoformat` and the repository only ever applies it to such strings. -/

def fromIsoChars (l : List Char) : Option UTCTime :=
  (parseFixed 4 l).bind fun p₁ =>
  (expectChar '-' p₁.2).bind fun l₁ =>
  (parseFixed 2 l₁).bind fun p₂ =>
  (expectChar '-' p₂.2).bind fun l₂ =>
  (parseFixed 2 l₂).bind fun p₃ =>
  (expectChar 'T' p₃.2).bind fun l₃ =>
  (parseFixed 2 l₃).bind fun p₄ =>
  (expectChar ':' p₄.2).bind fun l₄ =>
  (parseFixed 2 l₄).bind fun p₅ =>
  (expectChar ':' p₅.2).bind fun l₅ =>
  (parseFixed 2 l₅).bind fun p₆ =>
  (parseFrac p₆.2).bind fun p₇ =>
  (parseOffsetUTC p₇.2).bind fun l₆ =>
  if l₆ = [] then some ⟨p₁.1, p₂.1, p₃.1, p₄.1, p₅.1, p₆.1, p₇.1⟩ else none

/-- `datetime.fromisoformat` on a string. -/

def fromIso (s : String) : Option UTCTime := fromIsoChars s.data

def strLtb : List Char → List Char → Bool
  | [], [] => false
  | [], _ :: _ => true
  | _ :: _, [] => false
  | c₁ :: l₁, c₂ :: l₂ => if c₁ = c₂ then strLtb l₁ l₂ else decide (c₁ < c₂)

structure Idea where
  id : String
  text : String
  upvotes : Int
  created_at : UTCTime
deriving DecidableEq, Repr

/-- An idea document as stored in the `ideas` collection: `prepare_for_mongo` has
serialized `created_at` to a string before `insert_one`. -/

structure StoredIdea where
  id : String
  text : String
  upvotes : Int
  created_at : String
deriving DecidableEq, Repr

/-- `prepare_for_mongo`: serialize the `created_at` datetime with `isoformat()`. -/

def prepare_for_mongo (r : Idea) : StoredIdea :=
  ⟨r.id, r.text, r.upvotes, isoString r.created_at⟩

/-- `parse_from_mongo` followed by building the response model: deserialize
`created_at` with `fromisoformat`; `none` models the exception a malformed
string would raise. -/

def parse_from_mongo (d : StoredIdea) : Option Idea :=
  (fromIso d.created_at).map fun t => ⟨d.id, d.text, d.upvotes, t⟩

/-- The document order requested by `.sort([("upvotes", -1), ("created_at", -1)])`:
`a` precedes `b` when `a` has strictly more upvotes, or equal upvotes and a
byte-wise greater-or-equal `created_at` string. -/

def ideaLeb (a b : StoredIdea) : Bool :=
  decide (b.upvotes < a.upvotes) ||
    (a.upvotes == b.upvotes && ! strLtb a.created_at.data b.created_at.data)

/-- The sorted sequence the `ideas` collection returns for the list query (the
database may use any algorithm realizing the requested order; insertion sort is
one such realization). -/

def sortIdeas (s : List StoredIdea) : List StoredIdea :=
  List.insertionSort (fun a b => ideaLeb a b = true) s

/-- Map a fallible function over a list, failing if any element fails. -/

def mapOpt (f : α → Option β) : List α → Option (List β)
  | [] => some []
  | a :: l =>
    match f a, mapOpt f l with
    | some b, some m => some (b :: m)
    | _, _ => none

/-- GET /api/ideas: fetch the documents sorted by (upvotes desc, created_at desc),
capped at 1000 documents (`to_list(1000)`), deserializing each via
`parse_from_mongo`; `none` models a deserialization error. -/

def get_ideas (s : List StoredIdea) : Option (List Idea) :=
  mapOpt parse_from_mongo ((sortIdeas s).take 1000)

/-- POST /api/ideas: validate `1 ≤ len(text) ≤ 280` (pydantic `IdeaCreate`), build
the `Idea` from the freshly generated uuid and the current UTC time, insert its
serialized form, and return the record. `none` models the 422 validation
failure, in which case the collection is untouched. -/

def create_idea (text uuid : String) (now : UTCTime) (s : List StoredIdea) :
    Option (Idea × List StoredIdea) :=
  if 1 ≤ text.length ∧ text.length ≤ 280 then
    let obj : Idea := ⟨uuid, text, 0, now⟩
    some (obj, s ++ [prepare_for_mongo obj])
  else none

/-- `find_one_and_update({"id": i}, {"$inc": {"upvotes": 1}}, return_document=True)`:
atomically increment the first document matching `i` and return the post-update
document, or `none` with the collection unchanged when no document matches. -/

def findOneAndUpdateInc (i : String) : List StoredIdea → List StoredIdea × Option StoredIdea
  | [] => ([], none)
  | d :: rest =>
    if d.id = i then
      (⟨d.id, d.text, d.upvotes + 1, d.created_at⟩ :: rest,
        some ⟨d.id, d.text, d.upvotes + 1, d.created_at⟩)
    else
      ((d :: (findOneAndUpdateInc i rest).1), (findOneAndUpdateInc i rest).2)

/-- PATCH /api/ideas/{id}/upvote, returning `(response, collection)`: response
`none` is the 404 branch, `some (some r)` the 200 with the post-increment record,
`some none` a deserialization error (impossible on reachable states). -/

def upvote_idea (i : String) (s : List StoredIdea) :
    Option (Option Idea) × List StoredIdea :=
  match (findOneAndUpdateInc i s).2 with
  | none => (none, (findOneAndUpdateInc i s).1)
  | some d => (some (parse_from_mongo d), (findOneAndUpdateInc i s).1)

/-- States of the `ideas` collection reachable from the empty collection by the
two mutating endpoints. The `uuid ∉ ids` hypothesis models uuid4 freshness (the
generated id is fresh, never reused), and `validTime now` models that
`datetime.now(timezone.utc)` returns a representable UTC datetime. -/

inductive Reachable : List StoredIdea → Prop
  | init : Reachable []
  | create {s : List StoredIdea} {text uuid : String} {now : UTCTime} {r : Idea}
      {s₁ : List StoredIdea} : Reachable s → uuid ∉ s.map StoredIdea.id →
      validTime now → create_idea text uuid now s = some (r, s₁) → Reachable s₁
  | upvote {s : List StoredIdea} (i : String) : Reachable s →
      Reachable (findOneAndUpdateInc i s).1

/-- The post-increment version of a stored document. -/

def bump (d : StoredIdea) : StoredIdea := ⟨d.id, d.text, d.upvotes + 1, d.created_at⟩

def WF (s : List StoredIdea) : Prop :=
  ∀ d ∈ s, ∃ t, validTime t ∧ d.created_at = isoString t

def respLE (a b : Idea) : Prop :=
  b.upvotes < a.upvotes ∨ (a.upvotes = b.upvotes ∧
    (timeLt b.created_at a.created_at ∨ b.created_at = a.created_at))

def iterUpvote (i : String) : Nat → List StoredIdea → List StoredIdea
  | 0, s => s
  | n + 1, s => iterUpvote i n (findOneAndUpdateInc i s).1

/-- An arbitrary sequence of upvote calls (each element one PATCH call). -/

def applyUpvotes (ops : List String) (s : List StoredIdea) : List StoredIdea :=
  ops.foldl (fun s₁ i => (findOneAndUpdateInc i s₁).1) s

/-- A sample creation timestamp used by concrete instances of the theorems. -/

def sampleTime : UTCTime := ⟨2024, 1, 2, 3, 4, 5, 6⟩

/-- A slightly later sample timestamp. -/

def sampleTime2 : UTCTime := ⟨2024, 1, 2, 3, 4, 5, 7⟩

/-- A sample stored document. -/

def sampleDoc : StoredIdea := ⟨"a", "tree house", 0, isoString sampleTime⟩

/-- The `k`-th document of the oversized collection used to exhibit the
1000-document fetch cap: distinct four-digit ids, same text and timestamp. -/

def capIdea (k : Nat) : StoredIdea := ⟨String.mk (padNum 4 k), "x", 0, isoString sampleTime⟩

/-- A collection of `n` capIdea documents. -/

def capStore (n : Nat) : List StoredIdea := (List.range n).map capIdea

@[simp]
theorem padNum_length (w n : Nat) : (padNum w n).length = w := by
  induction w generalizing n with
  | zero => rfl
  | succ w ih => simp [padNum, ih]

/-- The UTF-8 offset suffix `datetime.isoformat()` emits for `timezone.utc`. -/

theorem digitVal_digitChar : ∀ d < 10, digitVal (Nat.digitChar d) = some d := by decide

theorem parseFixed_padNum (w : Nat) : ∀ (n : Nat), n < 10 ^ w → ∀ (rest : List Char),
    parseFixed w (padNum w n ++ rest) = some (n, rest) := by
  induction w with
  | zero =>
    intro n hn rest
    interval_cases n
    rfl
  | succ w ih =>
    intro n hn rest
    have hd : n / 10 ^ w < 10 := Nat.div_lt_of_lt_mul (by rw [← pow_succ]; exact hn)
    have hm : n % 10 ^ w < 10 ^ w := Nat.mod_lt _ (Nat.pos_pow_of_pos w (by norm_num))
    have hrec := ih (n % 10 ^ w) hm rest
    have hsplit : n / 10 ^ w * 10 ^ w + n % 10 ^ w = n := by
      rw [Nat.mul_comm]
      exact Nat.div_add_mod n (10 ^ w)
    simp only [padNum, List.cons_append, parseFixed, List.append_eq,
      digitVal_digitChar _ hd, hrec, hsplit]

@[simp]
theorem expectChar_cons_self (c : Char) (l : List Char) : expectChar c (c :: l) = some l := by
  simp [expectChar]

theorem parseFrac_dot (l : List Char) : parseFrac ('.' :: l) = parseFixed 6 l := rfl

theorem parseFrac_plus (l : List Char) : parseFrac ('+' :: l) = some (0, '+' :: l) := rfl

theorem parseOffsetUTC_cons (l : List Char) :
    parseOffsetUTC ('+' :: '0' :: '0' :: ':' :: '0' :: '0' :: l) = some l := rfl

theorem fromIsoChars_isoChars (t : UTCTime) (h : validTime t) :
    fromIsoChars (isoChars t) = some t := by
  unfold validTime at h
  have p1 := parseFixed_padNum 4 t.year (by norm_num; omega)
  have p2 := parseFixed_padNum 2 t.month (by norm_num; omega)
  have p3 := parseFixed_padNum 2 t.day (by norm_num; omega)
  have p4 := parseFixed_padNum 2 t.hour (by norm_num; omega)
  have p5 := parseFixed_padNum 2 t.minute (by norm_num; omega)
  have p6 := parseFixed_padNum 2 t.second (by norm_num; omega)
  by_cases hus : t.microsecond = 0
  · simp only [fromIsoChars, isoChars, tzChars, if_pos hus, List.nil_append,
      List.cons_append, p1, p2, p3, p4, p5, p6, Option.some_bind, expectChar_cons_self,
      parseFrac_plus, parseOffsetUTC_cons]
    rw [if_pos trivial, ← hus]
  · have p7 := parseFixed_padNum 6 t.microsecond (by norm_num; omega)
    simp only [fromIsoChars, isoChars, tzChars, if_neg hus, List.nil_append, List.cons_append,
      p1, p2, p3, p4, p5, p6, p7, Option.some_bind, expectChar_cons_self, parseFrac_dot,
      parseOffsetUTC_cons, if_pos rfl]
    rw [if_pos trivial]

/-- Round trip at the string level: parsing back an emitted timestamp is exact. -/

theorem fromIso_isoString (t : UTCTime) (h : validTime t) : fromIso (isoString t) = some t :=
  fromIsoChars_isoChars t h

theorem lex_cons_cons {r : Char → Char → Prop} {a b : Char} {l m : List Char} :
    List.Lex r (a :: l) (b :: m) ↔ r a b ∨ (a = b ∧ List.Lex r l m) := by
  constructor
  · intro h
    cases h with
    | cons h => exact Or.inr ⟨rfl, h⟩
    | rel h => exact Or.inl h
  · intro h
    rcases h with h | ⟨rfl, h⟩
    · exact List.Lex.rel h
    · exact List.Lex.cons h

theorem lex_append_iff {r : Char → Char → Prop} :
    ∀ {a b : List Char}, a.length = b.length → ∀ {u v : List Char},
      (List.Lex r (a ++ u) (b ++ v) ↔ List.Lex r a b ∨ (a = b ∧ List.Lex r u v)) := by
  intro a
  induction a with
  | nil =>
    intro b hb u v
    cases b with
    | nil =>
      simp only [List.nil_append]
      constructor
      · intro h
        exact Or.inr ⟨by trivial, h⟩
      · rintro (h | ⟨-, h⟩)
        · exact absurd h (List.Lex.not_nil_right _ _)
        · exact h
    | cons y b => simp at hb
  | cons x a ih =>
    intro b hb u v
    cases b with
    | nil => simp at hb
    | cons y b =>
      simp only [List.cons_append, lex_cons_cons, List.cons.injEq]
      rw [ih (by simpa using hb)]
      tauto

theorem lex_irrefl : ∀ (l : List Char), ¬ List.Lex (· < ·) l l := by
  intro l
  induction l with
  | nil => exact List.Lex.not_nil_right _ _
  | cons x l ih =>
    rw [lex_cons_cons]
    rintro (h | ⟨-, h⟩)
    · exact lt_irrefl x h
    · exact ih h

theorem digitChar_lt_iff :
    ∀ d₁ < 10, ∀ d₂ < 10, (Nat.digitChar d₁ < Nat.digitChar d₂ ↔ d₁ < d₂) := by decide

theorem digitChar_eq_iff :
    ∀ d₁ < 10, ∀ d₂ < 10, (Nat.digitChar d₁ = Nat.digitChar d₂ ↔ d₁ = d₂) := by decide

theorem div_mod_lt_iff (B n₁ n₂ : Nat) (_hB : 0 < B) :
    (n₁ / B < n₂ / B ∨ (n₁ / B = n₂ / B ∧ n₁ % B < n₂ % B)) ↔ n₁ < n₂ := by
  have e₁ := Nat.div_add_mod n₁ B
  have e₂ := Nat.div_add_mod n₂ B
  constructor
  · rintro (h | ⟨he, h⟩)
    · by_contra hc
      push_neg at hc
      have : n₂ / B ≤ n₁ / B := Nat.div_le_div_right hc
      omega
    · rw [he] at e₁
      omega
  · intro h
    rcases Nat.lt_trichotomy (n₁ / B) (n₂ / B) with h₁ | h₁ | h₁
    · exact Or.inl h₁
    · refine Or.inr ⟨h₁, ?_⟩
      rw [h₁] at e₁
      omega
    · exfalso
      have : n₁ / B ≤ n₂ / B := Nat.div_le_div_right (le_of_lt h)
      omega

theorem padNum_lex_iff : ∀ (w n₁ n₂ : Nat), n₁ < 10 ^ w → n₂ < 10 ^ w →
    (List.Lex (· < ·) (padNum w n₁) (padNum w n₂) ↔ n₁ < n₂) := by
  intro w
  induction w with
  | zero =>
    intro n₁ n₂ h₁ h₂
    exact iff_of_false (List.Lex.not_nil_right _ _) (by omega)
  | succ w ih =>
    intro n₁ n₂ h₁ h₂
    have hd₁ : n₁ / 10 ^ w < 10 := Nat.div_lt_of_lt_mul (by rw [← pow_succ]; exact h₁)
    have hd₂ : n₂ / 10 ^ w < 10 := Nat.div_lt_of_lt_mul (by rw [← pow_succ]; exact h₂)
    have hm₁ : n₁ % 10 ^ w < 10 ^ w := Nat.mod_lt _ (Nat.pos_pow_of_pos w (by norm_num))
    have hm₂ : n₂ % 10 ^ w < 10 ^ w := Nat.mod_lt _ (Nat.pos_pow_of_pos w (by norm_num))
    rw [padNum, padNum, lex_cons_cons, digitChar_lt_iff _ hd₁ _ hd₂,
      digitChar_eq_iff _ hd₁ _ hd₂, ih _ _ hm₁ hm₂]
    exact div_mod_lt_iff (10 ^ w) n₁ n₂ (Nat.pos_pow_of_pos w (by norm_num))

theorem padNum_inj : ∀ (w n₁ n₂ : Nat), n₁ < 10 ^ w → n₂ < 10 ^ w →
    (padNum w n₁ = padNum w n₂ ↔ n₁ = n₂) := by
  intro w
  induction w with
  | zero =>
    intro n₁ n₂ h₁ h₂
    exact iff_of_true rfl (by omega)
  | succ w ih =>
    intro n₁ n₂ h₁ h₂
    have hd₁ : n₁ / 10 ^ w < 10 := Nat.div_lt_of_lt_mul (by rw [← pow_succ]; exact h₁)
    have hd₂ : n₂ / 10 ^ w < 10 := Nat.div_lt_of_lt_mul (by rw [← pow_succ]; exact h₂)
    have hm₁ : n₁ % 10 ^ w < 10 ^ w := Nat.mod_lt _ (Nat.pos_pow_of_pos w (by norm_num))
    have hm₂ : n₂ % 10 ^ w < 10 ^ w := Nat.mod_lt _ (Nat.pos_pow_of_pos w (by norm_num))
    rw [padNum, padNum, List.cons.injEq, digitChar_eq_iff _ hd₁ _ hd₂, ih _ _ hm₁ hm₂]
    have e₁ := Nat.div_add_mod n₁ (10 ^ w)
    have e₂ := Nat.div_add_mod n₂ (10 ^ w)
    constructor
    · rintro ⟨he, hm⟩
      rw [he] at e₁
      omega
    · rintro rfl
      exact ⟨rfl, rfl⟩

theorem lex_seg_step (w n₁ n₂ : Nat) (h₁ : n₁ < 10 ^ w) (h₂ : n₂ < 10 ^ w)
    {u v : List Char} {P : Prop} (hP : List.Lex (· < ·) u v ↔ P) :
    (List.Lex (· < ·) (padNum w n₁ ++ u) (padNum w n₂ ++ v) ↔ n₁ < n₂ ∨ (n₁ = n₂ ∧ P)) := by
  rw [lex_append_iff (by simp), padNum_lex_iff w n₁ n₂ h₁ h₂, hP,
    padNum_inj w n₁ n₂ h₁ h₂]

theorem lex_sep_step (c : Char) {u v : List Char} {P : Prop}
    (hP : List.Lex (· < ·) u v ↔ P) :
    (List.Lex (· < ·) (c :: u) (c :: v) ↔ P) := by
  rw [lex_cons_cons, hP]
  simp [lt_irrefl]

theorem lex_frac_iff (us₁ us₂ : Nat) (h₁ : us₁ < 10 ^ 6) (h₂ : us₂ < 10 ^ 6) :
    (List.Lex (· < ·) ((if us₁ = 0 then [] else '.' :: padNum 6 us₁) ++ tzChars)
      ((if us₂ = 0 then [] else '.' :: padNum 6 us₂) ++ tzChars) ↔ us₁ < us₂) := by
  have htz : List.Lex (· < ·) tzChars tzChars ↔ False := iff_false_intro (lex_irrefl _)
  by_cases e₁ : us₁ = 0 <;> by_cases e₂ : us₂ = 0
  · rw [if_pos e₁, if_pos e₂, List.nil_append]
    exact iff_of_false (lex_irrefl _) (by omega)
  · rw [if_pos e₁, if_neg e₂, List.nil_append, List.cons_append]
    refine iff_of_true ?_ (by omega)
    exact List.Lex.rel (by decide)
  · rw [if_neg e₁, if_pos e₂, List.nil_append, List.cons_append]
    refine iff_of_false ?_ (by omega)
    intro hl
    rcases lex_cons_cons.mp hl with h | ⟨h, -⟩
    · exact absurd h (by decide)
    · exact absurd h (by decide)
  · rw [if_neg e₁, if_neg e₂, List.cons_append, List.cons_append]
    rw [lex_sep_step '.' (lex_seg_step 6 us₁ us₂ h₁ h₂ htz)]
    simp

/-- Lexicographic comparison of emitted ISO-8601 timestamps agrees exactly with
chronological comparison of the underlying UTC datetimes. -/

theorem isoChars_lex_iff (t₁ t₂ : UTCTime) (h₁ : validTime t₁) (h₂ : validTime t₂) :
    (List.Lex (· < ·) (isoChars t₁) (isoChars t₂) ↔ timeLt t₁ t₂) := by
  unfold validTime at h₁ h₂
  have hfrac := lex_frac_iff t₁.microsecond t₂.microsecond (by norm_num; omega)
    (by norm_num; omega)
  have hsec := lex_seg_step 2 t₁.second t₂.second (by norm_num; omega) (by norm_num; omega) hfrac
  have hmin := lex_seg_step 2 t₁.minute t₂.minute (by norm_num; omega) (by norm_num; omega)
    (lex_sep_step ':' hsec)
  have hhour := lex_seg_step 2 t₁.hour t₂.hour (by norm_num; omega) (by norm_num; omega)
    (lex_sep_step ':' hmin)
  have hday := lex_seg_step 2 t₁.day t₂.day (by norm_num; omega) (by norm_num; omega)
    (lex_sep_step 'T' hhour)
  have hmon := lex_seg_step 2 t₁.month t₂.month (by norm_num; omega) (by norm_num; omega)
    (lex_sep_step '-' hday)
  have hyear := lex_seg_step 4 t₁.year t₂.year (by norm_num; omega) (by norm_num; omega)
    (lex_sep_step '-' hmon)
  exact hyear

theorem timeLt_trichotomy (t₁ t₂ : UTCTime) : timeLt t₁ t₂ ∨ t₁ = t₂ ∨ timeLt t₂ t₁ := by
  obtain ⟨y₁, mo₁, d₁, h₁, mi₁, s₁, us₁⟩ := t₁
  obtain ⟨y₂, mo₂, d₂, h₂, mi₂, s₂, us₂⟩ := t₂
  simp only [timeLt, UTCTime.mk.injEq]
  omega

theorem timeLt_asymm (t₁ t₂ : UTCTime) : timeLt t₁ t₂ → ¬ timeLt t₂ t₁ := by
  obtain ⟨y₁, mo₁, d₁, h₁, mi₁, s₁, us₁⟩ := t₁
  obtain ⟨y₂, mo₂, d₂, h₂, mi₂, s₂, us₂⟩ := t₂
  simp only [timeLt]
  omega

theorem timeLt_irrefl (t : UTCTime) : ¬ timeLt t t := by
  obtain ⟨y, mo, d, h, mi, s, us⟩ := t
  simp only [timeLt]
  omega

/-- Byte-wise (code-point) strict comparison of character lists: the order MongoDB
applies to stored `created_at` strings when sorting; every character the service
stores is ASCII, so byte order and code-point order coincide. -/

theorem strLtb_iff : ∀ (a b : List Char), strLtb a b = true ↔ List.Lex (· < ·) a b := by
  intro a
  induction a with
  | nil =>
    intro b
    cases b with
    | nil => exact iff_of_false (by simp [strLtb]) (List.Lex.not_nil_right _ _)
    | cons c l => exact iff_of_true (by simp [strLtb]) List.Lex.nil
  | cons c₁ l₁ ih =>
    intro b
    cases b with
    | nil => exact iff_of_false (by simp [strLtb]) (List.Lex.not_nil_right _ _)
    | cons c₂ l₂ =>
      rw [lex_cons_cons]
      by_cases h : c₁ = c₂
      · subst h
        simp [strLtb, ih, lt_irrefl]
      · simp [strLtb, h]

/-- The `Idea` / `IdeaResponse` record shape of the API, `created_at` being a
datetime (pydantic models `Idea` and `IdeaResponse` in server.py share it). -/

theorem fuai_cases (i : String) : ∀ (s : List StoredIdea),
    (findOneAndUpdateInc i s = (s, none) ∧ ∀ d ∈ s, d.id ≠ i) ∨
    (∃ pre d post, s = pre ++ d :: post ∧ (∀ e ∈ pre, e.id ≠ i) ∧ d.id = i ∧
      findOneAndUpdateInc i s = (pre ++ bump d :: post, some (bump d))) := by
  intro s
  induction s with
  | nil => exact Or.inl ⟨rfl, by simp⟩
  | cons d rest ih =>
    by_cases h : d.id = i
    · refine Or.inr ⟨[], d, rest, rfl, by simp, h, ?_⟩
      simp [findOneAndUpdateInc, h, bump]
    · rcases ih with ⟨he, hall⟩ | ⟨pre, e, post, hs, hpre, hid, heq⟩
      · refine Or.inl ⟨?_, ?_⟩
        · simp [findOneAndUpdateInc, h, he]
        · intro x hx
          rcases List.mem_cons.mp hx with rfl | hx
          · exact h
          · exact hall x hx
      · refine Or.inr ⟨d :: pre, e, post, by rw [hs, List.cons_append], ?_, hid, ?_⟩
        · intro x hx
          rcases List.mem_cons.mp hx with rfl | hx
          · exact h
          · exact hpre x hx
        · simp [findOneAndUpdateInc, h, heq]

theorem fuai_not_found {i : String} {s : List StoredIdea} (h : ∀ d ∈ s, d.id ≠ i) :
    findOneAndUpdateInc i s = (s, none) := by
  rcases fuai_cases i s with ⟨he, -⟩ | ⟨pre, d, post, hs, -, hid, -⟩
  · exact he
  · exact absurd hid (h d (by rw [hs]; simp))

theorem fuai_found {i : String} {s : List StoredIdea} {d : StoredIdea} (hd : d ∈ s)
    (hid : d.id = i) :
    ∃ pre e post, s = pre ++ e :: post ∧ (∀ x ∈ pre, x.id ≠ i) ∧ e.id = i ∧
      findOneAndUpdateInc i s = (pre ++ bump e :: post, some (bump e)) := by
  rcases fuai_cases i s with ⟨-, hall⟩ | h
  · exact absurd hid (hall d hd)
  · exact h

theorem fuai_map_proj (i : String) : ∀ (s : List StoredIdea),
    ((findOneAndUpdateInc i s).1).map (fun d => (d.id, d.text, d.created_at)) =
      s.map (fun d => (d.id, d.text, d.created_at)) := by
  intro s
  induction s with
  | nil => rfl
  | cons d rest ih =>
    by_cases h : d.id = i
    · simp [findOneAndUpdateInc, h]
    · simp [findOneAndUpdateInc, h, ih]

theorem fuai_map_id (i : String) (s : List StoredIdea) :
    ((findOneAndUpdateInc i s).1).map StoredIdea.id = s.map StoredIdea.id := by
  have h := congrArg (List.map (fun p => p.1)) (fuai_map_proj i s)
  simpa [Function.comp] using h

theorem fuai_mem_inv (i : String) : ∀ (s : List StoredIdea), ∀ d ∈ (findOneAndUpdateInc i s).1,
    ∃ e ∈ s, d.id = e.id ∧ d.text = e.text ∧ d.created_at = e.created_at ∧
      e.upvotes ≤ d.upvotes := by
  intro s
  induction s with
  | nil => simp [findOneAndUpdateInc]
  | cons x rest ih =>
    intro d hd
    by_cases h : x.id = i
    · simp only [findOneAndUpdateInc, if_pos h] at hd
      rcases List.mem_cons.mp hd with rfl | hd
      · exact ⟨x, List.mem_cons_self x rest, rfl, rfl, rfl, by
          show x.upvotes ≤ x.upvotes + 1
          omega⟩
      · exact ⟨d, List.mem_cons_of_mem x hd, rfl, rfl, rfl, le_refl _⟩
    · simp only [findOneAndUpdateInc, if_neg h] at hd
      rcases List.mem_cons.mp hd with rfl | hd
      · exact ⟨d, List.mem_cons_self d rest, rfl, rfl, rfl, le_refl _⟩
      · obtain ⟨e, he, h₁, h₂, h₃, h₄⟩ := ih d hd
        exact ⟨e, List.mem_cons_of_mem x he, h₁, h₂, h₃, h₄⟩

theorem fuai_mem_of_ne {i : String} {s : List StoredIdea} {d : StoredIdea} (hd : d ∈ s)
    (h : d.id ≠ i) : d ∈ (findOneAndUpdateInc i s).1 := by
  induction s with
  | nil => cases hd
  | cons x rest ih =>
    by_cases hx : x.id = i
    · simp only [findOneAndUpdateInc, if_pos hx]
      rcases List.mem_cons.mp hd with rfl | hd
      · exact absurd hx h
      · exact List.mem_cons_of_mem _ hd
    · simp only [findOneAndUpdateInc, if_neg hx]
      rcases List.mem_cons.mp hd with rfl | hd
      · exact List.mem_cons_self _ _
      · exact List.mem_cons_of_mem _ (ih hd)

theorem unique_id {s : List StoredIdea} (h : (s.map StoredIdea.id).Nodup) {d e : StoredIdea}
    (hd : d ∈ s) (he : e ∈ s) (hide : d.id = e.id) : d = e :=
  List.inj_on_of_nodup_map h hd he hide

/-- Well-formedness of the stored collection: every `created_at` is the exact
serialization of a representable UTC datetime. -/

theorem WF_fuai {s : List StoredIdea} (h : WF s) (i : String) :
    WF (findOneAndUpdateInc i s).1 := by
  intro d hd
  obtain ⟨e, he, -, -, hc, -⟩ := fuai_mem_inv i s d hd
  obtain ⟨t, ht, hct⟩ := h e he
  exact ⟨t, ht, by rw [hc, hct]⟩

/-- The state invariant: reachable collections are well-formed, have pairwise
distinct ids, and non-negative upvote counters. -/

theorem reachable_invariant {s : List StoredIdea} (h : Reachable s) :
    WF s ∧ (s.map StoredIdea.id).Nodup ∧ ∀ d ∈ s, 0 ≤ d.upvotes := by
  induction h with
  | init =>
    exact ⟨fun d hd => absurd hd (List.not_mem_nil d), by simp,
      fun d hd => absurd hd (List.not_mem_nil d)⟩
  | @create s text uuid now r s₁ _ hfresh hvalid heq ih =>
    obtain ⟨ihWF, ihNodup, ihPos⟩ := ih
    rw [create_idea] at heq
    split at heq
    · rw [Option.some.injEq, Prod.mk.injEq] at heq
      obtain ⟨-, rfl⟩ := heq
      refine ⟨?_, ?_, ?_⟩
      · intro d hd
        rcases List.mem_append.mp hd with hd | hd
        · exact ihWF d hd
        · rcases List.mem_singleton.mp hd with rfl
          exact ⟨now, hvalid, rfl⟩
      · rw [List.map_append]
        refine List.Nodup.append ihNodup (by simp) ?_
        intro a ha hb
        rcases List.mem_singleton.mp hb with rfl
        exact hfresh ha
      · intro d hd
        rcases List.mem_append.mp hd with hd | hd
        · exact ihPos d hd
        · rcases List.mem_singleton.mp hd with rfl
          exact le_refl 0
    · cases heq
  | @upvote s i _ ih =>
    obtain ⟨ihWF, ihNodup, ihPos⟩ := ih
    refine ⟨WF_fuai ihWF i, by rw [fuai_map_id]; exact ihNodup, ?_⟩
    intro d hd
    obtain ⟨e, he, -, -, -, hle⟩ := fuai_mem_inv i s d hd
    exact le_trans (ihPos e he) hle

theorem ideaLeb_iff (a b : StoredIdea) : ideaLeb a b = true ↔
    (b.upvotes < a.upvotes ∨ (a.upvotes = b.upvotes ∧
      ¬ List.Lex (· < ·) a.created_at.data b.created_at.data)) := by
  simp [ideaLeb, ← strLtb_iff]

theorem lex_or_eq_of_not_lex {x y : List Char} (h : ¬ List.Lex (· < ·) x y) :
    List.Lex (· < ·) y x ∨ x = y := by
  rcases lt_trichotomy x y with h₁ | h₁ | h₁
  · exact absurd h₁ h
  · exact Or.inr h₁
  · exact Or.inl h₁

instance : IsTotal StoredIdea (fun a b => ideaLeb a b = true) := by
  constructor
  intro a b
  rw [ideaLeb_iff, ideaLeb_iff]
  rcases lt_trichotomy a.upvotes b.upvotes with h | h | h
  · exact Or.inr (Or.inl h)
  · rcases lt_trichotomy a.created_at.data b.created_at.data with h₁ | h₁ | h₁
    · exact Or.inr (Or.inr ⟨h.symm, fun h₂ => lt_asymm h₁ h₂⟩)
    · exact Or.inl (Or.inr ⟨h, fun h₂ => lex_irrefl _ (h₁ ▸ h₂)⟩)
    · exact Or.inl (Or.inr ⟨h, fun h₂ => lt_asymm h₁ h₂⟩)
  · exact Or.inl (Or.inl h)

instance : IsTrans StoredIdea (fun a b => ideaLeb a b = true) := by
  constructor
  intro a b c hab hbc
  rw [ideaLeb_iff] at hab hbc ⊢
  rcases hab with hab | ⟨hab, hab'⟩ <;> rcases hbc with hbc | ⟨hbc, hbc'⟩
  · exact Or.inl (by omega)
  · exact Or.inl (by omega)
  · exact Or.inl (by omega)
  · refine Or.inr ⟨by omega, ?_⟩
    intro h
    rcases lex_or_eq_of_not_lex hab' with h₁ | h₁
    · rcases lex_or_eq_of_not_lex hbc' with h₂ | h₂
      · have h₃ : a.created_at.data < c.created_at.data := h
        have h₄ : c.created_at.data < b.created_at.data := h₂
        have h₅ : b.created_at.data < a.created_at.data := h₁
        exact lt_asymm h₃ (lt_trans h₄ h₅)
      · exact hab' (by rw [h₂]; exact h)
    · exact hbc' (by rw [← h₁]; exact h)

theorem sortIdeas_perm (s : List StoredIdea) : (sortIdeas s).Perm s :=
  List.perm_insertionSort _ s

theorem sortIdeas_sorted (s : List StoredIdea) :
    (sortIdeas s).Pairwise (fun a b => ideaLeb a b = true) :=
  List.sorted_insertionSort _ s

theorem mapOpt_forall₂ {α β : Type} {f : α → Option β} :
    ∀ {l : List α} {m : List β}, mapOpt f l = some m →
      List.Forall₂ (fun a b => f a = some b) l m := by
  intro l
  induction l with
  | nil =>
    intro m h
    rw [mapOpt, Option.some.injEq] at h
    rw [← h]
    constructor
  | cons a l ih =>
    intro m h
    rw [mapOpt] at h
    cases hfa : f a with
    | none => rw [hfa] at h; cases h
    | some b =>
      cases hml : mapOpt f l with
      | none => rw [hfa, hml] at h; cases h
      | some m₁ =>
        rw [hfa, hml, Option.some.injEq] at h
        rw [← h]
        exact List.Forall₂.cons hfa (ih hml)

theorem mapOpt_total {α β : Type} {f : α → Option β} :
    ∀ {l : List α}, (∀ a ∈ l, ∃ b, f a = some b) → ∃ m, mapOpt f l = some m := by
  intro l
  induction l with
  | nil => exact fun _ => ⟨[], rfl⟩
  | cons a l ih =>
    intro h
    obtain ⟨b, hb⟩ := h a (List.mem_cons_self a l)
    obtain ⟨m, hm⟩ := ih fun x hx => h x (List.mem_cons_of_mem a hx)
    exact ⟨b :: m, by rw [mapOpt, hb, hm]⟩

theorem forall₂_mem_right {α β : Type} {R : α → β → Prop} :
    ∀ {l : List α} {m : List β}, List.Forall₂ R l m → ∀ {b}, b ∈ m → ∃ a ∈ l, R a b := by
  intro l m h
  induction h with
  | nil => intro b hb; cases hb
  | cons hr _ ih =>
    intro b hb
    rcases List.mem_cons.mp hb with rfl | hb
    · exact ⟨_, List.mem_cons_self _ _, hr⟩
    · obtain ⟨a, ha, hra⟩ := ih hb
      exact ⟨a, List.mem_cons_of_mem _ ha, hra⟩

theorem forall₂_mem_left {α β : Type} {R : α → β → Prop} :
    ∀ {l : List α} {m : List β}, List.Forall₂ R l m → ∀ {a}, a ∈ l → ∃ b ∈ m, R a b := by
  intro l m h
  induction h with
  | nil => intro a ha; cases ha
  | cons hr _ ih =>
    intro a ha
    rcases List.mem_cons.mp ha with rfl | ha
    · exact ⟨_, List.mem_cons_self _ _, hr⟩
    · obtain ⟨b, hb, hrb⟩ := ih ha
      exact ⟨b, List.mem_cons_of_mem _ hb, hrb⟩

theorem forall₂_pairwise {α β : Type} {R : α → β → Prop} {P : α → α → Prop}
    {Q : β → β → Prop} (hPQ : ∀ a₁ b₁ a₂ b₂, R a₁ b₁ → R a₂ b₂ → P a₁ a₂ → Q b₁ b₂) :
    ∀ {l : List α} {m : List β}, List.Forall₂ R l m → l.Pairwise P → m.Pairwise Q := by
  intro l m hf
  induction hf with
  | nil => intro; constructor
  | @cons a b l₁ m₁ hr hf ih =>
    intro hp
    rcases List.pairwise_cons.mp hp with ⟨hhead, htail⟩
    refine List.pairwise_cons.mpr ⟨?_, ih htail⟩
    intro b₂ hb₂
    obtain ⟨a₂, ha₂, hra₂⟩ := forall₂_mem_right hf hb₂
    exact hPQ a b a₂ b₂ hr hra₂ (hhead a₂ ha₂)

/-- The list-endpoint contract order on response records: strictly more upvotes
first; on equal upvotes, chronologically newer `created_at` first. -/

theorem isoString_data (t : UTCTime) : (isoString t).data = isoChars t := rfl

theorem parse_of_serialized {d : StoredIdea} {t : UTCTime} (ht : validTime t)
    (hc : d.created_at = isoString t) :
    parse_from_mongo d = some ⟨d.id, d.text, d.upvotes, t⟩ := by
  rw [parse_from_mongo, hc, fromIso_isoString t ht]
  rfl

theorem ideaLeb_respLE {a b : StoredIdea} {ra rb : Idea}
    (ha : parse_from_mongo a = some ra ∧ ∃ t, validTime t ∧ a.created_at = isoString t)
    (hb : parse_from_mongo b = some rb ∧ ∃ t, validTime t ∧ b.created_at = isoString t)
    (hab : ideaLeb a b = true) : respLE ra rb := by
  obtain ⟨hpa, ta, hta, hca⟩ := ha
  obtain ⟨hpb, tb, htb, hcb⟩ := hb
  rw [parse_of_serialized hta hca, Option.some.injEq] at hpa
  rw [parse_of_serialized htb hcb, Option.some.injEq] at hpb
  subst hpa
  subst hpb
  rcases (ideaLeb_iff a b).mp hab with h | ⟨h, hs⟩
  · exact Or.inl h
  · refine Or.inr ⟨h, ?_⟩
    have hs₁ : ¬ List.Lex (· < ·) (isoChars ta) (isoChars tb) := by
      rw [hca, hcb, isoString_data, isoString_data] at hs
      exact hs
    rw [isoChars_lex_iff ta tb hta htb] at hs₁
    rcases timeLt_trichotomy ta tb with h₁ | h₁ | h₁
    · exact absurd h₁ hs₁
    · exact Or.inr h₁.symm
    · exact Or.inl h₁

theorem forall₂_and_left {α β : Type} {R : α → β → Prop} {S : α → Prop} :
    ∀ {l : List α} {m : List β}, List.Forall₂ R l m → (∀ a ∈ l, S a) →
      List.Forall₂ (fun a b => R a b ∧ S a) l m := by
  intro l m h
  induction h with
  | nil => intro; constructor
  | cons hr _ ih =>
    intro hS
    exact List.Forall₂.cons ⟨hr, hS _ (List.mem_cons_self _ _)⟩
      (ih fun a ha => hS a (List.mem_cons_of_mem _ ha))

/-- Master specification of the list endpoint on a well-formed collection: it
succeeds, its output deserializes exactly the first 1000 documents of the sorted
collection, and the output is ordered by (upvotes desc, created_at desc). -/

theorem get_ideas_spec {s : List StoredIdea} (hWF : WF s) :
    ∃ out, get_ideas s = some out ∧
      List.Forall₂ (fun d r => parse_from_mongo d = some r) ((sortIdeas s).take 1000) out ∧
      out.Pairwise respLE := by
  have hsubWF : WF ((sortIdeas s).take 1000) := by
    intro d hd
    exact hWF d ((sortIdeas_perm s).mem_iff.mp (List.take_subset _ _ hd))
  have hparse : ∀ d ∈ (sortIdeas s).take 1000, ∃ r, parse_from_mongo d = some r := by
    intro d hd
    obtain ⟨t, ht, hc⟩ := hsubWF d hd
    exact ⟨_, parse_of_serialized ht hc⟩
  obtain ⟨out, hout⟩ := mapOpt_total hparse
  refine ⟨out, hout, mapOpt_forall₂ hout, ?_⟩
  have hf := forall₂_and_left (mapOpt_forall₂ hout) hsubWF
  have hpair : ((sortIdeas s).take 1000).Pairwise (fun a b => ideaLeb a b = true) :=
    List.Pairwise.sublist (List.take_sublist _ _) (sortIdeas_sorted s)
  refine forall₂_pairwise ?_ hf hpair
  intro a₁ b₁ a₂ b₂ h₁ h₂ hp
  exact ideaLeb_respLE h₁ h₂ hp

/-- `n` sequential upvote calls for the same id. -/

theorem applyUpvotes_map_proj : ∀ (ops : List String) (s : List StoredIdea),
    (applyUpvotes ops s).map (fun d => (d.id, d.text, d.created_at)) =
      s.map (fun d => (d.id, d.text, d.created_at)) := by
  intro ops
  induction ops with
  | nil => intro s; rfl
  | cons i ops ih =>
    intro s
    show (applyUpvotes ops (findOneAndUpdateInc i s).1).map _ = _
    rw [ih, fuai_map_proj]

theorem map_id_of_map_proj {l m : List StoredIdea}
    (h : l.map (fun d => (d.id, d.text, d.created_at)) =
      m.map (fun d => (d.id, d.text, d.created_at))) :
    l.map StoredIdea.id = m.map StoredIdea.id := by
  have h₁ := congrArg (List.map Prod.fst) h
  simpa [List.map_map, Function.comp] using h₁

theorem parse_fields {d : StoredIdea} {e : Idea} (h : parse_from_mongo d = some e) :
    e.id = d.id ∧ e.text = d.text ∧ e.upvotes = d.upvotes ∧
      fromIso d.created_at = some e.created_at := by
  rw [parse_from_mongo] at h
  cases hf : fromIso d.created_at with
  | none => rw [hf] at h; cases h
  | some t =>
    rw [hf, Option.map_some', Option.some.injEq] at h
    rw [← h]
    exact ⟨rfl, rfl, rfl, rfl⟩

theorem iterUpvote_spec (i : String) : ∀ (n : Nat) (s : List StoredIdea) (d : StoredIdea),
    (s.map StoredIdea.id).Nodup → d ∈ s → d.id = i →
    (⟨d.id, d.text, d.upvotes + (n : Int), d.created_at⟩ : StoredIdea) ∈ iterUpvote i n s ∧
    (iterUpvote i n s).map StoredIdea.id = s.map StoredIdea.id := by
  intro n
  induction n with
  | zero =>
    intro s d _ hd _
    refine ⟨?_, rfl⟩
    obtain ⟨di, dt, du, dc⟩ := d
    simpa [iterUpvote] using hd
  | succ n ih =>
    intro s d hN hd hid
    obtain ⟨pre, e, post, hs, hpre, heid, heq⟩ := fuai_found hd hid
    have hde : e = d := unique_id hN (by rw [hs]; simp) hd (by rw [heid, hid])
    subst hde
    have h₁ : (findOneAndUpdateInc i s).1 = pre ++ bump e :: post := by rw [heq]
    have hN₁ : ((pre ++ bump e :: post).map StoredIdea.id).Nodup := by
      rw [← h₁, fuai_map_id i s]
      exact hN
    have hmem : bump e ∈ pre ++ bump e :: post := by simp
    have hbid : (bump e).id = i := by
      show e.id = i
      exact heid
    have hrec := ih (pre ++ bump e :: post) (bump e) hN₁ hmem hbid
    have hrw : (⟨(bump e).id, (bump e).text, (bump e).upvotes + (n : Int),
        (bump e).created_at⟩ : StoredIdea) =
        ⟨e.id, e.text, e.upvotes + ((n + 1 : Nat) : Int), e.created_at⟩ := by
      simp only [bump]
      congr 1
      push_cast
      ring
    rw [hrw] at hrec
    refine ⟨?_, ?_⟩
    · show _ ∈ iterUpvote i n (findOneAndUpdateInc i s).1
      rw [h₁]
      exact hrec.1
    · show (iterUpvote i n (findOneAndUpdateInc i s).1).map StoredIdea.id = _
      rw [h₁, hrec.2, ← h₁, fuai_map_id i s]

theorem capStore_reachable : ∀ n, n ≤ 10000 → Reachable (capStore n) := by
  intro n
  induction n with
  | zero => intro _; exact Reachable.init
  | succ n ih =>
    intro h
    have hr := ih (by omega)
    have hstep : capStore (n + 1) = capStore n ++ [capIdea n] := by
      rw [capStore, List.range_succ, List.map_append]
      rfl
    have hfresh : String.mk (padNum 4 n) ∉ (capStore n).map StoredIdea.id := by
      rw [capStore, List.map_map]
      intro hmem
      simp only [List.mem_map, List.mem_range, Function.comp, capIdea] at hmem
      obtain ⟨k, hk, hkeq⟩ := hmem
      have hpad : padNum 4 k = padNum 4 n := by
        injection hkeq
      have := (padNum_inj 4 k n (by norm_num; omega) (by norm_num; omega)).mp hpad
      omega
    have hcreate : create_idea "x" (String.mk (padNum 4 n)) sampleTime (capStore n) =
        some (⟨String.mk (padNum 4 n), "x", 0, sampleTime⟩, capStore (n + 1)) := by
      rw [create_idea, if_pos (by decide), hstep]
      rfl
    exact Reachable.create hr hfresh (by decide) hcreate

theorem create_sample : create_idea "tree house" "a" sampleTime [] =
    some (⟨"a", "tree house", 0, sampleTime⟩, [sampleDoc]) := by
  rw [create_idea, if_pos (by decide)]
  rfl

theorem sample_reachable : Reachable [sampleDoc] :=
  Reachable.create Reachable.init (by decide) (by decide) create_sample

/-- Claim C3: for every text of length 1..280 the create operation succeeds,
returning a record with upvotes 0, the fresh id, the given text and the
creation timestamp, and persists its serialized form. -/

theorem claim_C3 (text uuid : String) (now : UTCTime) (s : List StoredIdea)
    (h₁ : 1 ≤ text.length) (h₂ : text.length ≤ 280)
    (hfresh : uuid ∉ s.map StoredIdea.id) :
    ∃ r s₁, create_idea text uuid now s = some (r, s₁) ∧ r.upvotes = 0 ∧
      r.text = text ∧ r.created_at = now ∧ (∀ d ∈ s, r.id ≠ d.id) ∧
      s₁ = s ++ [prepare_for_mongo r] := by
  refine ⟨⟨uuid, text, 0, now⟩, s ++ [prepare_for_mongo ⟨uuid, text, 0, now⟩],
    ?_, rfl, rfl, rfl, ?_, rfl⟩
  · rw [create_idea, if_pos ⟨h₁, h₂⟩]
  · intro d hd heq
    refine hfresh ?_
    rw [show (⟨uuid, text, 0, now⟩ : Idea).id = uuid from rfl] at heq
    rw [heq]
    exact List.mem_map_of_mem StoredIdea.id hd

theorem claim_C3_witness :
    (1 ≤ "tree house".length ∧ "tree house".length ≤ 280 ∧
      "a" ∉ ([] : List StoredIdea).map StoredIdea.id) ∧
    ∃ r s₁, create_idea "tree house" "a" sampleTime [] = some (r, s₁) ∧
      r.upvotes = 0 ∧ r.text = "tree house" ∧ r.created_at = sampleTime ∧
      (∀ d ∈ ([] : List StoredIdea), r.id ≠ d.id) ∧
      s₁ = [] ++ [prepare_for_mongo r] :=
  ⟨⟨by decide, by decide, by decide⟩,
    claim_C3 "tree house" "a" sampleTime [] (by decide) (by decide) (by decide)⟩

/-- Claim C4: for text of length 0 or more than 280 the create operation fails
with the 422 validation error and nothing is persisted (the collection is left
untouched, create returning no new state). -/

theorem claim_C4 (text uuid : String) (now : UTCTime) (s : List StoredIdea)
    (h : text.length = 0 ∨ text.length > 280) :
    create_idea text uuid now s = none := by
  rw [create_idea, if_neg]
  rintro ⟨h₁, h₂⟩
  omega

theorem claim_C4_witness :
    ("".length = 0 ∨ "".length > 280) ∧
    create_idea "" "a" sampleTime [sampleDoc] = none :=
  ⟨Or.inl rfl, claim_C4 "" "a" sampleTime [sampleDoc] (Or.inl rfl)⟩

/-- Claim C5: upvoting an id absent from the collection fails with the 404
not-found error and the collection is returned unchanged. -/

theorem claim_C5 (i : String) (s : List StoredIdea) (h : ∀ d ∈ s, d.id ≠ i) :
    upvote_idea i s = (none, s) := by
  rw [upvote_idea, fuai_not_found h]

theorem claim_C5_witness :
    (∀ d ∈ [sampleDoc], d.id ≠ "b") ∧
    upvote_idea "b" [sampleDoc] = (none, [sampleDoc]) :=
  ⟨by decide, claim_C5 "b" [sampleDoc] (by decide)⟩

/-- Claim C7: the list operation is a pure function of the collection state:
two calls on the same state return identical sequences. -/

theorem claim_C7 (s : List StoredIdea) (r₁ r₂ : Option (List Idea))
    (h₁ : get_ideas s = r₁) (h₂ : get_ideas s = r₂) : r₁ = r₂ := by
  rw [← h₁, ← h₂]

theorem claim_C7_witness :
    get_ideas [sampleDoc] = some [⟨"a", "tree house", 0, sampleTime⟩] ∧
    (some [⟨"a", "tree house", 0, sampleTime⟩] : Option (List Idea)) =
      some [⟨"a", "tree house", 0, sampleTime⟩] :=
  ⟨by rfl, claim_C7 [sampleDoc] _ _ (by rfl) (by rfl)⟩

/-- Claim C9: in every reachable state each stored `created_at` is the ISO-8601
serialization of a representable UTC datetime, and on such strings the byte-wise
comparison the sort applies agrees exactly with chronological order. -/

theorem claim_C9 (s : List StoredIdea) (h : Reachable s) :
    (∀ d ∈ s, ∃ t, validTime t ∧ d.created_at = isoString t) ∧
    (∀ t₁ t₂, validTime t₁ → validTime t₂ →
      (strLtb (isoString t₁).data (isoString t₂).data = true ↔ timeLt t₁ t₂)) := by
  refine ⟨(reachable_invariant h).1, ?_⟩
  intro t₁ t₂ h₁ h₂
  rw [strLtb_iff, isoString_data, isoString_data]
  exact isoChars_lex_iff t₁ t₂ h₁ h₂

theorem claim_C9_witness :
    Reachable [sampleDoc] ∧
    ((∀ d ∈ [sampleDoc], ∃ t, validTime t ∧ d.created_at = isoString t) ∧
      (∀ t₁ t₂, validTime t₁ → validTime t₂ →
        (strLtb (isoString t₁).data (isoString t₂).data = true ↔ timeLt t₁ t₂))) :=
  ⟨sample_reachable, claim_C9 [sampleDoc] sample_reachable⟩

/-- Claim C10: serialization round-trips exactly: for a record whose timestamp
is a representable UTC datetime, `parse_from_mongo` after `prepare_for_mongo`
restores the record unchanged, with no precision loss. -/

theorem claim_C10 (r : Idea) (h : validTime r.created_at) :
    parse_from_mongo (prepare_for_mongo r) = some r := by
  rw [prepare_for_mongo, parse_from_mongo]
  show (fromIso (isoString r.created_at)).map _ = some r
  rw [fromIso_isoString _ h]
  rfl

theorem claim_C10_witness :
    validTime (⟨"a", "hi", 3, sampleTime⟩ : Idea).created_at ∧
    parse_from_mongo (prepare_for_mongo ⟨"a", "hi", 3, sampleTime⟩) =
      some ⟨"a", "hi", 3, sampleTime⟩ :=
  ⟨by decide, claim_C10 ⟨"a", "hi", 3, sampleTime⟩ (by decide)⟩

/-- Claim C8: in every reachable state all upvote counters are non-negative and
ids are pairwise distinct; moreover no operation decreases any idea's upvotes
(an upvote maps every stored record to one with the same id and at least the
same count, and a successful create keeps every existing record unchanged). -/

theorem claim_C8 (s : List StoredIdea) (h : Reachable s) :
    (∀ d ∈ s, 0 ≤ d.upvotes) ∧ (s.map StoredIdea.id).Nodup ∧
    (∀ i, ∀ d ∈ s, ∃ e ∈ (findOneAndUpdateInc i s).1, e.id = d.id ∧
      d.upvotes ≤ e.upvotes) ∧
    (∀ text uuid now r s₁, create_idea text uuid now s = some (r, s₁) →
      ∀ d ∈ s, d ∈ s₁) := by
  obtain ⟨-, hN, hPos⟩ := reachable_invariant h
  refine ⟨hPos, hN, ?_, ?_⟩
  · intro i d hd
    by_cases hdi : d.id = i
    · obtain ⟨pre, e, post, hs, -, heid, heq⟩ := fuai_found hd hdi
      have hde : e = d := unique_id hN (by rw [hs]; simp) hd (by rw [heid, hdi])
      subst hde
      refine ⟨bump e, ?_, rfl, ?_⟩
      · rw [show (findOneAndUpdateInc i s).1 = pre ++ bump e :: post from by rw [heq]]
        simp
      · show e.upvotes ≤ e.upvotes + 1
        omega
    · exact ⟨d, fuai_mem_of_ne hd hdi, rfl, le_refl _⟩
  · intro text uuid now r s₁ heq d hd
    rw [create_idea] at heq
    split at heq
    · rw [Option.some.injEq, Prod.mk.injEq] at heq
      obtain ⟨-, rfl⟩ := heq
      exact List.mem_append_left _ hd
    · cases heq

theorem claim_C8_witness :
    Reachable [sampleDoc] ∧
    ((∀ d ∈ [sampleDoc], 0 ≤ d.upvotes) ∧
      ([sampleDoc].map StoredIdea.id).Nodup ∧
      (∀ i, ∀ d ∈ [sampleDoc], ∃ e ∈ (findOneAndUpdateInc i [sampleDoc]).1,
        e.id = d.id ∧ d.upvotes ≤ e.upvotes) ∧
      (∀ text uuid now r s₁, create_idea text uuid now [sampleDoc] = some (r, s₁) →
        ∀ d ∈ [sampleDoc], d ∈ s₁)) :=
  ⟨sample_reachable, claim_C8 [sampleDoc] sample_reachable⟩

/-- Claim C1 (amended): on every reachable collection of at most 1000 ideas (the
fixed fetch cap) the list operation succeeds and returns all ideas, ordered by
upvotes descending with ties broken by created_at descending; the empty
collection yields the empty list. -/

theorem claim_C1 (s : List StoredIdea) (hs : Reachable s) (hlen : s.length ≤ 1000) :
    ∃ out, get_ideas s = some out ∧ out.length = s.length ∧
      (∀ d ∈ s, ∃ e ∈ out, parse_from_mongo d = some e) ∧ out.Pairwise respLE ∧
      (s = [] → out = []) := by
  have hWF := (reachable_invariant hs).1
  obtain ⟨out, hout, hf, hpair⟩ := get_ideas_spec hWF
  have hsort : (sortIdeas s).length = s.length := by
    rw [sortIdeas, List.length_insertionSort]
  have htake : (sortIdeas s).take 1000 = sortIdeas s :=
    List.take_of_length_le (by omega)
  rw [htake] at hf
  have hlen₂ : out.length = s.length := by
    rw [← hf.length_eq, hsort]
  refine ⟨out, hout, hlen₂, ?_, hpair, ?_⟩
  · intro d hd
    exact forall₂_mem_left hf ((sortIdeas_perm s).mem_iff.mpr hd)
  · intro hnil
    rw [← List.length_eq_zero, hlen₂, hnil]
    rfl

theorem claim_C1_witness :
    Reachable [sampleDoc] ∧ [sampleDoc].length ≤ 1000 ∧
    ∃ out, get_ideas [sampleDoc] = some out ∧ out.length = [sampleDoc].length ∧
      (∀ d ∈ [sampleDoc], ∃ e ∈ out, parse_from_mongo d = some e) ∧
      out.Pairwise respLE ∧ ([sampleDoc] = [] → out = []) :=
  ⟨sample_reachable, by decide, claim_C1 [sampleDoc] sample_reachable (by decide)⟩

theorem capStore_WF (n : Nat) : WF (capStore n) := by
  intro d hd
  rw [capStore] at hd
  obtain ⟨k, -, rfl⟩ := List.mem_map.mp hd
  exact ⟨sampleTime, by decide, rfl⟩

/-- Claim C1, counterexample to the unamended statement: a reachable collection
of 1001 ideas exists on which the list operation returns only 1000 records, so
it does not return all ideas in the collection. -/

theorem claim_C1_cex :
    Reachable (capStore 1001) ∧ (capStore 1001).length = 1001 ∧
    (get_ideas (capStore 1001)).map List.length = some 1000 := by
  refine ⟨capStore_reachable 1001 (by omega), by simp [capStore], ?_⟩
  obtain ⟨out, hout, hf, -⟩ := get_ideas_spec (capStore_WF 1001)
  rw [hout, Option.map_some']
  have hlen : out.length = ((sortIdeas (capStore 1001)).take 1000).length :=
    hf.length_eq.symm
  rw [hlen, List.length_take, sortIdeas, List.length_insertionSort]
  simp [capStore]

/-- Claim C2: upvoting an id present in the collection returns 200 with the
post-increment record (upvotes exactly one higher) and stores the increment;
iterating the call n times yields a stored count of exactly the start plus n,
hence exactly n from a fresh record. -/

theorem claim_C2 (i : String) (s : List StoredIdea) (d : StoredIdea)
    (hN : (s.map StoredIdea.id).Nodup) (hWF : WF s) (hd : d ∈ s) (hid : d.id = i) :
    (∃ t, validTime t ∧ d.created_at = isoString t ∧
      (upvote_idea i s).1 = some (some ⟨d.id, d.text, d.upvotes + 1, t⟩) ∧
      bump d ∈ (upvote_idea i s).2) ∧
    (∀ n : Nat,
      (⟨d.id, d.text, d.upvotes + (n : Int), d.created_at⟩ : StoredIdea) ∈
        iterUpvote i n s ∧
      ∀ e ∈ iterUpvote i n s, e.id = i → e.upvotes = d.upvotes + (n : Int)) ∧
    (d.upvotes = 0 → ∀ n : Nat, ∀ e ∈ iterUpvote i n s, e.id = i →
      e.upvotes = (n : Int)) := by
  obtain ⟨t, ht, hct⟩ := hWF d hd
  obtain ⟨pre, e, post, hs, hpre, heid, heq⟩ := fuai_found hd hid
  have hde : e = d := unique_id hN (by rw [hs]; simp) hd (by rw [heid, hid])
  subst hde
  have hup : upvote_idea i s =
      (some (parse_from_mongo (bump e)), pre ++ bump e :: post) := by
    rw [upvote_idea, heq]
  have hparse : parse_from_mongo (bump e) = some ⟨e.id, e.text, e.upvotes + 1, t⟩ :=
    parse_of_serialized ht (show (bump e).created_at = isoString t from hct)
  have hiter : ∀ n : Nat,
      (⟨e.id, e.text, e.upvotes + (n : Int), e.created_at⟩ : StoredIdea) ∈
        iterUpvote i n s ∧
      ∀ x ∈ iterUpvote i n s, x.id = i → x.upvotes = e.upvotes + (n : Int) := by
    intro n
    obtain ⟨hmem, hids⟩ := iterUpvote_spec i n s e hN hd hid
    refine ⟨hmem, ?_⟩
    intro x hx hxid
    have hN₂ : ((iterUpvote i n s).map StoredIdea.id).Nodup := by
      rw [hids]
      exact hN
    have hx₂ : x = ⟨e.id, e.text, e.upvotes + (n : Int), e.created_at⟩ :=
      unique_id hN₂ hx hmem (by rw [hxid]; exact hid.symm)
    rw [hx₂]
  refine ⟨⟨t, ht, hct, ?_, ?_⟩, hiter, ?_⟩
  · rw [hup]
    show some (parse_from_mongo (bump e)) = _
    rw [hparse]
  · rw [hup]
    show bump e ∈ pre ++ bump e :: post
    simp
  · intro h0 n x hx hxid
    have := (hiter n).2 x hx hxid
    omega

theorem claim_C2_witness :
    (([sampleDoc].map StoredIdea.id).Nodup ∧ WF [sampleDoc] ∧
      sampleDoc ∈ [sampleDoc] ∧ sampleDoc.id = "a") ∧
    ((∃ t, validTime t ∧ sampleDoc.created_at = isoString t ∧
      (upvote_idea "a" [sampleDoc]).1 =
        some (some ⟨sampleDoc.id, sampleDoc.text, sampleDoc.upvotes + 1, t⟩) ∧
      bump sampleDoc ∈ (upvote_idea "a" [sampleDoc]).2) ∧
    (∀ n : Nat,
      (⟨sampleDoc.id, sampleDoc.text, sampleDoc.upvotes + (n : Int),
        sampleDoc.created_at⟩ : StoredIdea) ∈ iterUpvote "a" n [sampleDoc] ∧
      ∀ e ∈ iterUpvote "a" n [sampleDoc], e.id = "a" →
        e.upvotes = sampleDoc.upvotes + (n : Int)) ∧
    (sampleDoc.upvotes = 0 → ∀ n : Nat, ∀ e ∈ iterUpvote "a" n [sampleDoc],
      e.id = "a" → e.upvotes = (n : Int))) :=
  ⟨⟨by decide,
    fun d hd => by
      rcases List.mem_singleton.mp hd with rfl
      exact ⟨sampleTime, by decide, rfl⟩,
    List.mem_singleton_self sampleDoc, rfl⟩,
    claim_C2 "a" [sampleDoc] sampleDoc (by decide)
      (fun d hd => by
        rcases List.mem_singleton.mp hd with rfl
        exact ⟨sampleTime, by decide, rfl⟩)
      (List.mem_singleton_self sampleDoc) rfl⟩

/-- Claim C6: a successful upvote changes only the target record's upvotes (its
id, text and created_at and every other record are unchanged); consequently a
record returned by create, fetched via list after any sequence of upvotes,
carries the same id, text and created_at, differing at most in upvotes. -/

theorem claim_C6 (i : String) (s s₁ : List StoredIdea) (u : StoredIdea)
    (h : findOneAndUpdateInc i s = (s₁, some u)) :
    ((∃ d ∈ s, d.id = i ∧ u = bump d ∧ ∀ e ∈ s, e.id ≠ i → e ∈ s₁) ∧
      s₁.map (fun d => (d.id, d.text, d.created_at)) =
        s.map (fun d => (d.id, d.text, d.created_at))) ∧
    (∀ text uuid now r s₂ ops out,
      (s.map StoredIdea.id).Nodup → uuid ∉ s.map StoredIdea.id → validTime now →
      create_idea text uuid now s = some (r, s₂) →
      get_ideas (applyUpvotes ops s₂) = some out →
      ∀ e ∈ out, e.id = r.id → e.text = r.text ∧ e.created_at = r.created_at) := by
  constructor
  · rcases fuai_cases i s with ⟨heq, -⟩ | ⟨pre, d, post, hs, hpre, hdid, heq⟩
    · rw [h, Prod.mk.injEq] at heq
      exact absurd heq.2 (by simp)
    · rw [h, Prod.mk.injEq] at heq
      obtain ⟨hs₁, hu⟩ := heq
      refine ⟨⟨d, by rw [hs]; simp, hdid, by rw [Option.some.injEq] at hu; exact hu, ?_⟩, ?_⟩
      · intro e he hei
        rw [hs] at he
        rw [hs₁]
        rcases List.mem_append.mp he with he | he
        · exact List.mem_append_left _ he
        · rcases List.mem_cons.mp he with rfl | he
          · exact absurd hdid hei
          · exact List.mem_append_right _ (List.mem_cons_of_mem _ he)
      · rw [← show (findOneAndUpdateInc i s).1 = s₁ from by rw [h]]
        exact fuai_map_proj i s
  · intro text uuid now r s₂ ops out hN hfresh hvt hcreate hget e he heid
    rw [create_idea] at hcreate
    split at hcreate
    · rw [Option.some.injEq, Prod.mk.injEq] at hcreate
      obtain ⟨hr, hs₂⟩ := hcreate
      subst hr
      subst hs₂
      have hproj := applyUpvotes_map_proj ops
        (s ++ [prepare_for_mongo ⟨uuid, text, 0, now⟩])
      have hNodup₂ : (((s ++ [prepare_for_mongo ⟨uuid, text, 0, now⟩]).map
          StoredIdea.id)).Nodup := by
        rw [List.map_append]
        refine List.Nodup.append hN (by simp) ?_
        intro a ha hb
        rcases List.mem_singleton.mp hb with rfl
        exact hfresh ha
      have hf := mapOpt_forall₂ hget
      obtain ⟨dst, hdst_take, hdst_parse⟩ := forall₂_mem_right hf he
      have hdstF : dst ∈ applyUpvotes ops
          (s ++ [prepare_for_mongo ⟨uuid, text, 0, now⟩]) :=
        (sortIdeas_perm _).mem_iff.mp (List.take_subset _ _ hdst_take)
      obtain ⟨heid', hetext, -, hecreated⟩ := parse_fields hdst_parse
      have h₁ : (dst.id, dst.text, dst.created_at) ∈
          (s ++ [prepare_for_mongo ⟨uuid, text, 0, now⟩]).map
            (fun d => (d.id, d.text, d.created_at)) := by
        rw [← hproj]
        exact List.mem_map_of_mem _ hdstF
      have h₂ : ((prepare_for_mongo ⟨uuid, text, 0, now⟩).id,
          (prepare_for_mongo ⟨uuid, text, 0, now⟩).text,
          (prepare_for_mongo ⟨uuid, text, 0, now⟩).created_at) ∈
          (s ++ [prepare_for_mongo ⟨uuid, text, 0, now⟩]).map
            (fun d => (d.id, d.text, d.created_at)) :=
        List.mem_map_of_mem _ (by simp)
      have hfst : (((s ++ [prepare_for_mongo ⟨uuid, text, 0, now⟩]).map
          (fun d => (d.id, d.text, d.created_at))).map Prod.fst).Nodup := by
        rw [List.map_map]
        exact hNodup₂
      have hkey := List.inj_on_of_nodup_map hfst h₁ h₂ (by
        show dst.id = (prepare_for_mongo ⟨uuid, text, 0, now⟩).id
        rw [← heid']
        exact heid)
      rw [Prod.mk.injEq, Prod.mk.injEq] at hkey
      obtain ⟨-, htext, hcreated⟩ := hkey
      refine ⟨?_, ?_⟩
      · rw [hetext, htext]
        rfl
      · rw [hcreated] at hecreated
        rw [show (prepare_for_mongo ⟨uuid, text, 0, now⟩).created_at =
          isoString now from rfl, fromIso_isoString now hvt, Option.some.injEq]
          at hecreated
        rw [← hecreated]
    · cases hcreate

theorem claim_C6_witness :
    findOneAndUpdateInc "a" [sampleDoc] = ([bump sampleDoc], some (bump sampleDoc)) ∧
    (((∃ d ∈ [sampleDoc], d.id = "a" ∧ bump sampleDoc = bump d ∧
        ∀ e ∈ [sampleDoc], e.id ≠ "a" → e ∈ [bump sampleDoc]) ∧
      [bump sampleDoc].map (fun d => (d.id, d.text, d.created_at)) =
        [sampleDoc].map (fun d => (d.id, d.text, d.created_at))) ∧
    (∀ text uuid now r s₂ ops out,
      ([sampleDoc].map StoredIdea.id).Nodup → uuid ∉ [sampleDoc].map StoredIdea.id →
      validTime now → create_idea text uuid now [sampleDoc] = some (r, s₂) →
      get_ideas (applyUpvotes ops s₂) = some out →
      ∀ e ∈ out, e.id = r.id → e.text = r.text ∧ e.created_at = r.created_at)) :=
  ⟨by rfl, claim_C6 "a" [sampleDoc] [bump sampleDoc] (bump sampleDoc) (by rfl)⟩

end IdeaBoard
